import Mathlib

/-!
Verification of the instassist response parser and interaction state machine.

Shallow embedding of `src/prompt.go` and `src/ui.go`.  Go strings are
modelled as `List Char`; Go `int` as `Int` (with `Int.tmod` for Go's
truncating `%`).  Brace characters inside string literals are written with
the escapes \x7b and \x7d.
-/

namespace Instassist

/-- Go `unicode.IsSpace`: the White_Space property (Latin-1 fast path plus
the non-Latin-1 White_Space code points). -/
def goIsSpace (c : Char) : Bool :=
  let n := c.toNat
  (9 ≤ n && n ≤ 13) || n = 32 || n = 133 || n = 160 ||
  n = 0x1680 || (0x2000 ≤ n && n ≤ 0x200A) ||
  n = 0x2028 || n = 0x2029 || n = 0x202F || n = 0x205F || n = 0x3000

/-- Go `strings.TrimSpace`: drop leading and trailing white space. -/
def trimSpace (s : List Char) : List Char :=
  ((s.dropWhile goIsSpace).reverse.dropWhile goIsSpace).reverse

/-- Go `strings.TrimRight(s, "\n")`. -/
def trimRightNl (s : List Char) : List Char :=
  (s.reverse.dropWhile (fun c => c = '\n')).reverse

/-- Go `strings.ReplaceAll(s, "\n", " ")` (single-character old/new,
hence a pointwise map). -/
def replaceNlSp (s : List Char) : List Char :=
  s.map (fun c => if c = '\n' then ' ' else c)

/-- Accumulator-style worker for Go `strings.Fields`; `cur` holds the
current in-progress word reversed. -/
def fieldsAux : List Char → List Char → List (List Char)
  | [], cur => if cur = [] then [] else [cur.reverse]
  | c :: t, cur =>
    if goIsSpace c then
      if cur = [] then fieldsAux t [] else cur.reverse :: fieldsAux t []
    else fieldsAux t (c :: cur)

/-- Go `strings.Fields`: split around runs of white space. -/
def fields (s : List Char) : List (List Char) := fieldsAux s []

/-- Go `strings.Join(ws, " ")`. -/
def joinSp : List (List Char) → List Char
  | [] => []
  | [w] => w
  | w :: ws => w ++ ' ' :: joinSp ws

/-- `cleanText` from src/prompt.go: trim, replace newlines by spaces,
split into fields and re-join with single spaces. -/
def cleanText (s : List Char) : List Char :=
  joinSp (fields (replaceNlSp (trimSpace s)))

/-- Go `strings.Index(s, sub)`: position of the first occurrence of
`sub` in `s`, or `none`. -/
def strIndex (sub : List Char) : List Char → Option Nat
  | [] => if sub.isPrefixOf ([] : List Char) then some 0 else none
  | c :: t =>
    if sub.isPrefixOf (c :: t) then some 0
    else (strIndex sub (t)).map (· + 1)

/-- ASCII case folding, for `encoding/json`'s case-insensitive field-name
match (the struct tags here are plain ASCII). -/
def asciiLower (c : Char) : Char :=
  if 'A' ≤ c && c ≤ 'Z' then Char.ofNat (c.toNat + 32) else c

/-- Case-insensitive name equality used by the JSON field matcher. -/
def eqFold (a b : List Char) : Bool :=
  a.map asciiLower == b.map asciiLower

/-! ### JSON values and the decoder (`encoding/json` as used via
`json.NewDecoder(...).Decode(&resp)` in src/prompt.go)

Numbers keep their literal token, because decoding a number into a Go
`int` re-parses the literal with `strconv.ParseInt` and fails on
fractions/exponents.  The decoder is fueled (fuel bounds recursion depth;
`goDecode` supplies ample fuel), keeping every definition structurally
recursive and kernel-evaluable. -/

inductive Json where
  | null
  | boolean (b : Bool)
  | num (lit : List Char)
  | str (s : List Char)
  | arr (xs : List Json)
  | obj (kvs : List (List Char × Json))

/-- JSON syntactic white space (the `encoding/json` scanner's set). -/
def jsonWs (c : Char) : Bool :=
  c = ' ' || c = '\t' || c = '\n' || c = '\r'

def isJsonDigit (c : Char) : Bool := '0' ≤ c && c ≤ '9'

def hexVal (c : Char) : Option Nat :=
  let n := c.toNat
  if 48 ≤ n ∧ n ≤ 57 then some (n - 48)
  else if 97 ≤ n ∧ n ≤ 102 then some (n - 87)
  else if 65 ≤ n ∧ n ≤ 70 then some (n - 55)
  else none

/-- Decode the body of a JSON string (opening quote already consumed):
returns the decoded characters and the input following the closing quote.
Handles the escape sequences and surrogate pairs the way `encoding/json`
unquotes them (a lone surrogate becomes U+FFFD).  Fueled: one unit of fuel
per consumed escape or character, so any fuel above the input length is
ample. -/
def decodeStr : Nat → List Char → Option (List Char × List Char)
  | 0, _ => none
  | _, [] => none
  | fuel + 1, c :: t =>
    if c = '"' then some ([], t)
    else if c = '\\' then
      match t with
      | [] => none
      | e :: t' =>
        if e = '"' then (decodeStr fuel t').map (fun p => ('"' :: p.1, p.2))
        else if e = '\\' then (decodeStr fuel t').map (fun p => ('\\' :: p.1, p.2))
        else if e = '/' then (decodeStr fuel t').map (fun p => ('/' :: p.1, p.2))
        else if e = 'b' then (decodeStr fuel t').map (fun p => ('\x08' :: p.1, p.2))
        else if e = 'f' then (decodeStr fuel t').map (fun p => ('\x0c' :: p.1, p.2))
        else if e = 'n' then (decodeStr fuel t').map (fun p => ('\n' :: p.1, p.2))
        else if e = 'r' then (decodeStr fuel t').map (fun p => ('\r' :: p.1, p.2))
        else if e = 't' then (decodeStr fuel t').map (fun p => ('\t' :: p.1, p.2))
        else if e = 'u' then
          match t' with
          | h1 :: h2 :: h3 :: h4 :: r =>
            match hexVal h1, hexVal h2, hexVal h3, hexVal h4 with
            | some a, some b, some cc, some d =>
              let n := a * 4096 + b * 256 + cc * 16 + d
              if 0xD800 ≤ n && n ≤ 0xDBFF then
                -- high surrogate: look for a following low surrogate escape
                match r with
                | '\\' :: 'u' :: g1 :: g2 :: g3 :: g4 :: r2 =>
                  match hexVal g1, hexVal g2, hexVal g3, hexVal g4 with
                  | some a2, some b2, some c2, some d2 =>
                    let m := a2 * 4096 + b2 * 256 + c2 * 16 + d2
                    if 0xDC00 ≤ m && m ≤ 0xDFFF then
                      let cp := 0x10000 + (n - 0xD800) * 1024 + (m - 0xDC00)
                      (decodeStr fuel r2).map (fun p => (Char.ofNat cp :: p.1, p.2))
                    else (decodeStr fuel r).map (fun p => ('�' :: p.1, p.2))
                  | _, _, _, _ => (decodeStr fuel r).map (fun p => ('�' :: p.1, p.2))
                | _ => (decodeStr fuel r).map (fun p => ('�' :: p.1, p.2))
              else if 0xDC00 ≤ n && n ≤ 0xDFFF then
                (decodeStr fuel r).map (fun p => ('�' :: p.1, p.2))
              else
                (decodeStr fuel r).map (fun p => (Char.ofNat n :: p.1, p.2))
            | _, _, _, _ => none
          | _ => none
        else none
    else if c.toNat < 0x20 then none
    else (decodeStr fuel t).map (fun p => (c :: p.1, p.2))

/-- Lex a JSON number token per the JSON grammar, returning the literal
and the rest of the input. -/
def lexNumber (s : List Char) : Option (List Char × List Char) :=
  let (neg, s1) := match s with
    | '-' :: t => (['-'], t)
    | _ => (([] : List Char), s)
  match s1 with
  | [] => none
  | c :: t =>
    if c = '0' then
      let intPart := [c]
      let rest := t
      lexFrac neg intPart rest
    else if isJsonDigit c then
      let ds := t.takeWhile isJsonDigit
      lexFrac neg (c :: ds) (t.dropWhile isJsonDigit)
    else none
where
  lexFrac (neg intPart : List Char) (rest : List Char) :
      Option (List Char × List Char) :=
    let (fracPart, rest2) : List Char × List Char := match rest with
      | '.' :: u =>
        (('.' :: u.takeWhile isJsonDigit), u.dropWhile isJsonDigit)
      | _ => ([], rest)
    if fracPart = ['.'] then none
    else
      let (expPart, rest3) : List Char × List Char := match rest2 with
        | 'e' :: u => lexExp 'e' u
        | 'E' :: u => lexExp 'E' u
        | _ => ([], rest2)
      if expPart = ['!'] then none
      else some (neg ++ intPart ++ fracPart ++ expPart, rest3)
  lexExp (e : Char) (u : List Char) : List Char × List Char :=
    -- returns ['!'] as a failure marker when the exponent has no digits
    let (sgn, u1) : List Char × List Char := match u with
      | '+' :: v => (['+'], v)
      | '-' :: v => (['-'], v)
      | _ => ([], u)
    let ds := u1.takeWhile isJsonDigit
    if ds = [] then (['!'], u)
    else (e :: sgn ++ ds, u1.dropWhile isJsonDigit)

/-- Expect a literal keyword (`ull`, `rue`, `alse`) as a prefix. -/
def expectLit : List Char → List Char → Option (List Char)
  | [], rest => some rest
  | _, [] => none
  | k :: ks, c :: t => if c = k then expectLit ks t else none

mutual

/-- Parse one JSON value (leading white space allowed), returning the
value and the remaining input.  Mirrors the `encoding/json` scanner as
driven by `Decoder.Decode`: exactly one value is read, trailing data is
left unread.  Fuel bounds the recursion depth. -/
def parseVal : Nat → List Char → Option (Json × List Char)
  | 0, _ => none
  | fuel + 1, s =>
    let s := s.dropWhile jsonWs
    match s with
    | [] => none
    | c :: t =>
      if c = 'n' then (expectLit ['u', 'l', 'l'] t).map (fun r => (Json.null, r))
      else if c = 't' then
        (expectLit ['r', 'u', 'e'] t).map (fun r => (Json.boolean true, r))
      else if c = 'f' then
        (expectLit ['a', 'l', 's', 'e'] t).map (fun r => (Json.boolean false, r))
      else if c = '"' then
        (decodeStr (t.length + 1) t).map (fun p => (Json.str p.1, p.2))
      else if c = '[' then
        match (t.dropWhile jsonWs) with
        | ']' :: r => some (Json.arr [], r)
        | u => (parseElems fuel u).map (fun p => (Json.arr p.1, p.2))
      else if c = '\x7b' then
        match (t.dropWhile jsonWs) with
        | '\x7d' :: r => some (Json.obj [], r)
        | u => (parseMembers fuel u).map (fun p => (Json.obj p.1, p.2))
      else if c = '-' || isJsonDigit c then
        (lexNumber (c :: t)).map (fun p => (Json.num p.1, p.2))
      else none

/-- Parse the elements of a non-empty JSON array (after `[` and leading
white space), including the closing `]`. -/
def parseElems : Nat → List Char → Option (List Json × List Char)
  | 0, _ => none
  | fuel + 1, s =>
    match parseVal fuel s with
    | none => none
    | some (v, rest) =>
      match rest.dropWhile jsonWs with
      | ',' :: r =>
        (parseElems fuel r).map (fun p => (v :: p.1, p.2))
      | ']' :: r => some ([v], r)
      | _ => none

/-- Parse the members of a non-empty JSON object (after `{` and leading
white space), including the closing `}`. -/
def parseMembers : Nat → List Char → Option (List (List Char × Json) × List Char)
  | 0, _ => none
  | fuel + 1, s =>
    match s with
    | '"' :: t =>
      match decodeStr (t.length + 1) t with
      | none => none
      | some (key, rest) =>
        match rest.dropWhile jsonWs with
        | ':' :: r =>
          match parseVal fuel r with
          | none => none
          | some (v, rest2) =>
            match rest2.dropWhile jsonWs with
            | ',' :: r2 =>
              (parseMembers fuel (r2.dropWhile jsonWs)).map
                (fun p => ((key, v) :: p.1, p.2))
            | '\x7d' :: r2 => some ([(key, v)], r2)
            | _ => none
        | _ => none
    | _ => none

end

/-! ### The option data model and JSON unmarshalling (src/prompt.go) -/

/-- `optionEntry` from src/prompt.go: `value`, `description`,
`recommendation_order` (Go `int`, modelled as `Int` with the 64-bit
`ParseInt` range check applied at decode time). -/
structure OptionEntry where
  value : List Char
  description : List Char
  recommendationOrder : Int
deriving DecidableEq

def zeroEntry : OptionEntry := ⟨[], [], 0⟩

/-- `strconv.ParseInt(lit, 10, 64)` on a JSON number literal: an optional
sign followed by decimal digits only, within the int64 range. -/
def goParseInt64 (lit : List Char) : Option Int :=
  let (neg, ds) : Bool × List Char := match lit with
    | '-' :: t => (true, t)
    | '+' :: t => (false, t)
    | t => (false, t)
  if ds = [] || ds.any (fun c => !isJsonDigit c) then none
  else
    let n : Nat := ds.foldl (fun acc c => 10 * acc + (c.toNat - 48)) 0
    let v : Int := if neg then -(n : Int) else (n : Int)
    if -(2 ^ 63) ≤ v && v < 2 ^ 63 then some v else none

/-- Unmarshal one JSON object member into an `optionEntry` under
construction; unknown keys are ignored, `null` leaves the field as is,
and a type mismatch is an error. -/
def setEntryField (e : OptionEntry) (k : List Char) (v : Json) : Option OptionEntry :=
  if eqFold k "value".data then
    match v with
    | Json.str s => some { e with value := s }
    | Json.null => some e
    | _ => none
  else if eqFold k "description".data then
    match v with
    | Json.str s => some { e with description := s }
    | Json.null => some e
    | _ => none
  else if eqFold k "recommendation_order".data then
    match v with
    | Json.num lit => (goParseInt64 lit).map (fun n => { e with recommendationOrder := n })
    | Json.null => some e
    | _ => none
  else some e

/-- Unmarshal a JSON value into an `optionEntry` (a slice element):
an object, or `null` for the zero value. -/
def unmarshalEntry : Json → Option OptionEntry
  | Json.null => some zeroEntry
  | Json.obj kvs => kvs.foldlM (fun e kv => setEntryField e kv.1 kv.2) zeroEntry
  | _ => none

/-- Unmarshal a JSON value into the `Options []optionEntry` field:
an array of entries, or `null` leaving the nil slice. -/
def unmarshalEntries : Json → Option (List OptionEntry)
  | Json.arr xs => xs.mapM unmarshalEntry
  | Json.null => some []
  | _ => none

/-- Unmarshal a JSON value into `optionResponse`: a JSON object whose
`options` member (matched case-insensitively, later duplicates
overwriting) holds the entries; unknown keys are ignored. -/
def unmarshalResponse : Json → Option (List OptionEntry)
  | Json.null => some []
  | Json.obj kvs =>
    kvs.foldlM
      (fun acc kv =>
        if eqFold kv.1 "options".data then unmarshalEntries kv.2 else some acc)
      []
  | _ => none

/-- `json.NewDecoder(strings.NewReader(segment)).Decode(&resp)`:
decode one JSON value from the front of `segment` (trailing data is not
an error) and unmarshal it into `optionResponse`, yielding its options.
`none` models `err != nil`. -/
def goDecode (segment : List Char) : Option (List OptionEntry) :=
  match parseVal (2 * segment.length + 8) segment with
  | none => none
  | some (v, _) => unmarshalResponse v

/-! ### Ranking (the `sort.SliceStable` call in `parseOptions`) -/

/-- The comparator closure passed to `sort.SliceStable` in
`parseOptions`, on element values.  The source's final clause
`return i < j` compares current positions, i.e. it declares tied
elements already in order: that is exactly stability, so here ties
return `false` and the sort below is stable. -/
def goLess (a b : OptionEntry) : Bool :=
  let oi := a.recommendationOrder
  let oj := b.recommendationOrder
  if oi > 0 && oj > 0 && oi ≠ oj then oi < oj
  else if oi > 0 && oj ≤ 0 then true
  else if oi ≤ 0 && oj > 0 then false
  else false

/-- The non-strict total preorder induced by `goLess`; a stable sort by
the strict order `goLess` is a stable sort by `goLE`. -/
def goLE (a b : OptionEntry) : Prop := goLess b a = false

instance : DecidableRel goLE := fun a b => by
  unfold goLE; infer_instance

/-- Go's `sort.SliceStable` is a stable sort by the comparator; modelled
as a stable insertion sort by `goLE`. -/
def rankSort (l : List OptionEntry) : List OptionEntry :=
  l.insertionSort goLE

/-! ### `parseOptions` (src/prompt.go lines 28-63) -/

/-- The candidate marker `{"options"` scanned for by `parseOptions`. -/
def optionsMarker : List Char :=
  ['\x7b', '"', 'o', 'p', 't', 'i', 'o', 'n', 's', '"']

/-- The loop advances the search window by `len(`{"options`)` = 9
characters past each match. -/
def markerSkip : Nat := 9

/-- One candidate attempt: decode a JSON value at the segment start; a
success with a non-empty options array yields the (rank-sorted) options. -/
def decodeCandidate (segment : List Char) : Option (List OptionEntry) :=
  match goDecode segment with
  | some opts => if opts.length > 0 then some (rankSort opts) else none
  | none => none

/-- The scanning loop of `parseOptions`: find the next marker, attempt a
decode there, remember the last success, continue past the marker.
Fueled (one unit per iteration; each iteration consumes at least 9
characters, so any fuel above the input length is ample). -/
def scanLoop : Nat → List Char → List OptionEntry → List OptionEntry
  | 0, _, lastOpts => lastOpts
  | fuel + 1, search, lastOpts =>
    match strIndex optionsMarker search with
    | none => lastOpts
    | some idx =>
      let segment := search.drop idx
      let lastOpts' := match decodeCandidate segment with
        | some opts => opts
        | none => lastOpts
      scanLoop fuel (search.drop (idx + markerSkip)) lastOpts'

/-- `parseOptions` from src/prompt.go: last successful candidate wins;
with no success, the error `failed to parse options JSON`. -/
def parseOptions (raw : List Char) : Except (List Char) (List OptionEntry) :=
  let lastOpts := scanLoop (raw.length + 1) raw []
  if lastOpts.length > 0 then Except.ok lastOpts
  else Except.error "failed to parse options JSON".data

/-! ### Specification-side view of the scan: all marker occurrences,
left to right -/

/-- All start positions of `optionsMarker` occurrences in `s`, in
increasing order. -/
def occ : List Char → List Nat
  | [] => []
  | c :: t =>
    if optionsMarker.isPrefixOf (c :: t) then 0 :: (occ t).map (· + 1)
    else (occ t).map (· + 1)

/-- The successful candidate decodes along the scan, in scan order. -/
def succList (s : List Char) : List (List OptionEntry) :=
  (occ s).filterMap (fun i => decodeCandidate (s.drop i))

/-- `buildPrompt` from src/prompt.go. -/
def buildPrompt (userPrompt : List Char) : List Char :=
  "Give me one or more concise options with short descriptions for the following: ".data
    ++ userPrompt ++ '\n' ::
    "Respond ONLY with JSON shaped like \x7b\"options\":[\x7b\"value\":\"...\",\"description\":\"...\",\"recommendation_order\":1\x7d]\x7d. No extra text.".data

/-! ### The interaction state machine (src/ui.go)

The bubbletea `model` and its `Update` dispatch.  External collaborators
are represented at their boundary: the textarea's contents are a plain
string (cursor movement and editing are the component's own behaviour, so
a generic key carries the resulting text); the runner functions, the
clipboard and the shell are represented by the commands they would be
invoked with, plus result messages.  Styling-only code (`View`,
`lipgloss`) is modelled only where the claims touch it
(`renderOptionRow`). -/

inductive ViewMode where
  | modeInput
  | modeRunning
  | modeViewing
deriving DecidableEq

/-- The `model` struct from src/ui.go, with the runner functions
represented by their names (`cliOptions[i].name`). -/
structure Model where
  cliNames : List (List Char)
  cliIndex : Int
  inputVal : List Char
  mode : ViewMode
  running : Bool
  width : Int
  height : Int
  ready : Bool
  lastPrompt : List Char
  status : List Char
  rawOutput : List Char
  options : List OptionEntry
  selected : Int
  lastParseError : Option (List Char)
  autoExecute : Bool
  spinnerFrame : Int
deriving DecidableEq

/-- Commands returned to the bubbletea runtime.  `dispatch` stands for
the batched async runner invocation plus the spinner tick started by
`submitPrompt`; `execShell` for `execWithFeedback` (run `sh -c value`). -/
inductive Cmd where
  | none
  | quit
  | tickNext
  | dispatch (cli : List Char) (prompt : List Char)
  | execShell (value : List Char) (exitOnSuccess : Bool)
deriving DecidableEq

/-- Key messages, by how the handlers classify them.  `otherKey edit`
is any other key, with `edit` the textarea contents after the external
textarea component processed it (arbitrary, since the textarea is an
excluded collaborator). -/
inductive GoKey where
  | ctrlC
  | esc
  | qKey
  | ctrlN
  | ctrlP
  | nl
  | ctrlR
  | enterKey
  | ctrlEnter
  | upKey
  | downKey
  | jK
  | kK
  | otherKey (edit : List Char)
deriving DecidableEq

/-- Messages consumed by `Update`.  `keyMsg` carries the external
clipboard call's success for the one branch that performs it
synchronously. -/
inductive Msg where
  | resp (output : List Char) (err : Option (List Char)) (cli : List Char)
  | execRes (err : Option (List Char)) (exit : Bool)
  | tick
  | winSize (w h : Int)
  | keyMsg (k : GoKey) (clipboardOk : Bool)
deriving DecidableEq

def helpInput : List Char :=
  "enter: send • ctrl+r: send & run • alt+enter/ctrl+j: newline".data

def helpViewing : List Char :=
  "up/down/j/k: select • enter: copy & exit • ctrl+r: run & exit • alt+enter: new prompt • esc/q: quit".data

/-- `(m *model) nextCLI`. -/
def nextCLI (m : Model) : Model :=
  if m.cliNames.length = 0 then m
  else
    let m' := { m with cliIndex := (m.cliIndex + 1).tmod m.cliNames.length }
    { m' with status :=
        "using ".data ++ m'.cliNames.getD m'.cliIndex.toNat [] ++ " • ".data ++ helpInput }

/-- `(m *model) prevCLI`. -/
def prevCLI (m : Model) : Model :=
  if m.cliNames.length = 0 then m
  else
    let m' := { m with cliIndex := (m.cliIndex - 1 + m.cliNames.length).tmod m.cliNames.length }
    { m' with status :=
        "using ".data ++ m'.cliNames.getD m'.cliIndex.toNat [] ++ " • ".data ++ helpInput }

/-- `(m model) currentCLI().name`; Go indexes `cliOptions[cliIndex]`
directly (the index is maintained in range). -/
def currentCLIName (m : Model) : List Char :=
  m.cliNames.getD m.cliIndex.toNat []

/-- `(m *model) moveSelection(delta)`; Go's `%` on `int` is truncating,
hence `Int.tmod`. -/
def moveSelection (m : Model) (delta : Int) : Model :=
  if m.options.length = 0 then m
  else { m with selected := (m.selected + delta + m.options.length).tmod m.options.length }

/-- `(m model) selectedValue()`. -/
def selectedValue (m : Model) : List Char :=
  if m.options.length = 0 then []
  else if m.selected < 0 || m.selected ≥ m.options.length then []
  else (m.options.getD m.selected.toNat zeroEntry).value

/-- `(m model) submitPrompt()`. -/
def submitPrompt (m : Model) : Model × Cmd :=
  let userPrompt := trimRightNl m.inputVal
  if trimSpace userPrompt = [] then
    ({ m with status := "prompt is empty • ".data ++ helpInput }, Cmd.none)
  else
    let m' := { m with
      lastPrompt := userPrompt,
      running := true,
      mode := ViewMode.modeRunning,
      spinnerFrame := 0,
      status := [],
      options := [],
      lastParseError := Option.none,
      rawOutput := [],
      selected := 0 }
    (m', Cmd.dispatch (currentCLIName m') (buildPrompt userPrompt))

/-- `(m model) handleResponse(msg)` (src/ui.go lines 205-244). -/
def handleResponse (m : Model) (output : List Char) (err : Option (List Char))
    (cli : List Char) : Model × Cmd :=
  let m1 := { m with running := false, mode := ViewMode.modeViewing }
  let respText0 := trimSpace output
  let respText := match err with
    | some e => if respText0 = [] then e else respText0
    | Option.none => respText0
  let m2 := { m1 with rawOutput := respText, lastParseError := Option.none }
  match err with
  | some _ =>
    ({ m2 with
        status := "error from ".data ++ cli ++ " • ".data ++ helpViewing,
        options := [],
        selected := 0 }, Cmd.none)
  | Option.none =>
    match parseOptions respText with
    | Except.error pe =>
      ({ m2 with
          lastParseError := some pe,
          status := "parse error: ".data ++ pe ++ " • ".data ++ helpViewing,
          options := [],
          selected := 0 }, Cmd.none)
    | Except.ok opts =>
      let m3 := { m2 with options := opts, selected := 0, status := helpViewing }
      if m3.autoExecute && opts.length > 0 then
        ({ m3 with
            status := "running: ".data ++ cleanText (opts.headD zeroEntry).value,
            autoExecute := false },
          Cmd.execShell (opts.headD zeroEntry).value true)
      else (m3, Cmd.none)

/-- `(m model) handleInputKeys(msg)`.  Plain typed characters and cursor
keys are textarea edits (`otherKey`); `nl` (alt+enter/ctrl+j) inserts a
newline through the textarea. -/
def handleInputKeys (m : Model) (k : GoKey) : Model × Cmd :=
  match k with
  | GoKey.ctrlC => (m, Cmd.quit)
  | GoKey.esc => (m, Cmd.quit)
  | GoKey.ctrlN => (nextCLI m, Cmd.none)
  | GoKey.ctrlP => (prevCLI m, Cmd.none)
  | GoKey.nl => ({ m with inputVal := m.inputVal ++ ['\n'] }, Cmd.none)
  | GoKey.ctrlR => submitPrompt { m with autoExecute := true }
  | GoKey.enterKey => submitPrompt { m with autoExecute := false }
  | GoKey.ctrlEnter => submitPrompt { m with autoExecute := false }
  | GoKey.otherKey edit => ({ m with inputVal := edit }, Cmd.none)
  | _ => (m, Cmd.none)

/-- `(m model) handleViewingKeys(msg)` (src/ui.go lines 293-340). -/
def handleViewingKeys (m : Model) (k : GoKey) (clipboardOk : Bool) : Model × Cmd :=
  match k with
  | GoKey.ctrlC => (m, Cmd.quit)
  | GoKey.esc => (m, Cmd.quit)
  | GoKey.qKey => (m, Cmd.quit)
  | GoKey.nl =>
    ({ m with
        mode := ViewMode.modeInput,
        running := false,
        inputVal := [],
        status := helpInput,
        options := [],
        lastParseError := Option.none,
        rawOutput := [],
        autoExecute := false }, Cmd.none)
  | GoKey.ctrlR =>
    let value := selectedValue m
    if value = [] && m.rawOutput = [] then
      ({ m with status := "nothing to run • ".data ++ helpViewing }, Cmd.none)
    else
      let value := if value = [] then m.rawOutput else value
      ({ m with status := "running: ".data ++ cleanText value },
        Cmd.execShell value true)
  | GoKey.enterKey =>
    let value := selectedValue m
    if value = [] && m.rawOutput = [] then
      ({ m with status := "nothing to copy • ".data ++ helpViewing }, Cmd.none)
    else
      let value := if value = [] then m.rawOutput else value
      if clipboardOk then
        ({ m with status := "✅ Copied to clipboard: ".data ++ value }, Cmd.quit)
      else
        ({ m with status := "❌ CLIPBOARD FAILED • ".data ++ helpViewing }, Cmd.none)
  | GoKey.upKey => (moveSelection m (-1), Cmd.none)
  | GoKey.kK => (moveSelection m (-1), Cmd.none)
  | GoKey.downKey => (moveSelection m 1, Cmd.none)
  | GoKey.jK => (moveSelection m 1, Cmd.none)
  | _ => (m, Cmd.none)

/-- `(m model) handleRunningKeys(msg)`: only quitting is allowed while
running. -/
def handleRunningKeys (m : Model) (k : GoKey) : Model × Cmd :=
  match k with
  | GoKey.ctrlC => (m, Cmd.quit)
  | GoKey.esc => (m, Cmd.quit)
  | _ => (m, Cmd.none)

/-- `(m model) handleKeyMsg(msg)`. -/
def handleKeyMsg (m : Model) (k : GoKey) (clipboardOk : Bool) : Model × Cmd :=
  match m.mode with
  | ViewMode.modeInput => handleInputKeys m k
  | ViewMode.modeRunning => handleRunningKeys m k
  | ViewMode.modeViewing => handleViewingKeys m k clipboardOk

/-- `(m model) Update(msg)` (src/ui.go lines 161-203); resize and the
height bookkeeping only touch display fields. -/
def update (m : Model) (msg : Msg) : Model × Cmd :=
  match msg with
  | Msg.winSize w h => ({ m with width := w, height := h, ready := true }, Cmd.none)
  | Msg.tick =>
    if m.running then
      ({ m with spinnerFrame := (m.spinnerFrame + 1).tmod 10 }, Cmd.tickNext)
    else (m, Cmd.none)
  | Msg.resp output err cli => handleResponse m output err cli
  | Msg.execRes err exit =>
    match err with
    | some e =>
      ({ m with
          running := false,
          mode := ViewMode.modeViewing,
          status := "❌ exec failed: ".data ++ e ++ " • ".data ++ helpViewing },
        Cmd.none)
    | Option.none => if exit then (m, Cmd.quit) else (m, Cmd.none)
  | Msg.keyMsg k clipboardOk => handleKeyMsg m k clipboardOk

/-- `newModel` (src/ui.go): initial interactive state.  `names` is the
availability-filtered runner list (fatal at startup when empty) and
`idx0` the default-CLI index resolved by the constructor's scan. -/
def initModel (names : List (List Char)) (idx0 : Int) : Model :=
  { cliNames := names
    cliIndex := idx0
    inputVal := []
    mode := ViewMode.modeInput
    running := false
    width := 0
    height := 0
    ready := false
    lastPrompt := []
    status := helpInput
    rawOutput := []
    options := []
    selected := 0
    lastParseError := Option.none
    autoExecute := false
    spinnerFrame := 0 }

/-- States reachable from startup by any message sequence.  The index
hypotheses on `init` mirror `newModel`: the registry is non-empty (else
fatal) and the chosen default index is in range. -/
inductive Reachable : Model → Prop where
  | init (names : List (List Char)) (idx0 : Int) (hne : names ≠ [])
      (h0 : 0 ≤ idx0) (hlt : idx0 < names.length) :
      Reachable (initModel names idx0)
  | step (m : Model) (msg : Msg) (h : Reachable m) : Reachable (update m msg).1

/-- The display rows `renderOptionsTable` builds for one option
(src/ui.go lines 509-524), with the lipgloss styling wrappers dropped:
the displayed value and description are the `cleanText` of the stored
fields. -/
def renderOptionRow (isSel : Bool) (o : OptionEntry) : List (List Char) :=
  let value := cleanText o.value
  let desc := cleanText o.description
  let first := (if isSel then "▶ ".data else "  ".data) ++ value
  if desc = [] then [first] else [first, "  ".data ++ desc]

/-- The selection-index safety property of a state: the selected index
is never negative, and is in range whenever options are present. -/
def SelInv (m : Model) : Prop :=
  0 ≤ m.selected ∧ (m.options ≠ [] → m.selected < m.options.length)

/-- Exactly one of three alternatives holds. -/
def ExactlyOne (A B C : Prop) : Prop :=
  (A ∧ ¬B ∧ ¬C) ∨ (¬A ∧ B ∧ ¬C) ∨ (¬A ∧ ¬B ∧ C)

/-! ## Lemmas about the scan -/

theorem occ_cons_pos {c : Char} {t : List Char}
    (h : optionsMarker.isPrefixOf (c :: t) = true) :
    occ (c :: t) = 0 :: (occ t).map (· + 1) := by
  simp only [occ]
  rw [if_pos h]

theorem occ_cons_neg {c : Char} {t : List Char}
    (h : optionsMarker.isPrefixOf (c :: t) = false) :
    occ (c :: t) = (occ t).map (· + 1) := by
  simp only [occ]
  rw [if_neg (by simp [h])]

theorem strIndex_cons_pos {sub : List Char} {c : Char} {t : List Char}
    (h : sub.isPrefixOf (c :: t) = true) :
    strIndex sub (c :: t) = some 0 := by
  simp only [strIndex]
  rw [if_pos h]

theorem strIndex_cons_neg {sub : List Char} {c : Char} {t : List Char}
    (h : sub.isPrefixOf (c :: t) = false) :
    strIndex sub (c :: t) = (strIndex sub t).map (· + 1) := by
  simp only [strIndex]
  rw [if_neg (by simp [h])]

theorem strIndex_some_found {sub s : List Char} {i : Nat}
    (h : strIndex sub s = some i) : sub.isPrefixOf (s.drop i) = true := by
  induction s generalizing i with
  | nil =>
    unfold strIndex at h
    split at h
    · simp only [Option.some.injEq] at h
      subst h
      simpa using ‹sub.isPrefixOf ([] : List Char) = true›
    · simp at h
  | cons c t ih =>
    by_cases hpre : sub.isPrefixOf (c :: t) = true
    · rw [strIndex_cons_pos hpre] at h
      simp only [Option.some.injEq] at h
      subst h
      simpa using hpre
    · rw [strIndex_cons_neg (Bool.eq_false_iff.mpr hpre)] at h
      match hi : strIndex sub t with
      | Option.none => rw [hi] at h; simp at h
      | some j =>
        rw [hi] at h
        simp only [Option.map_some', Option.some.injEq] at h
        subst h
        simpa using ih hi

theorem strIndex_some_min {sub s : List Char} {i : Nat}
    (h : strIndex sub s = some i) :
    ∀ j, j < i → sub.isPrefixOf (s.drop j) = false := by
  induction s generalizing i with
  | nil =>
    unfold strIndex at h
    split at h
    · simp only [Option.some.injEq] at h
      omega
    · simp at h
  | cons c t ih =>
    by_cases hpre : sub.isPrefixOf (c :: t) = true
    · rw [strIndex_cons_pos hpre] at h
      simp only [Option.some.injEq] at h
      omega
    · rw [strIndex_cons_neg (Bool.eq_false_iff.mpr hpre)] at h
      match hi : strIndex sub t with
      | Option.none => rw [hi] at h; simp at h
      | some j' =>
        rw [hi] at h
        simp only [Option.map_some', Option.some.injEq] at h
        subst h
        intro j hj
        match j with
        | 0 => simpa using Bool.eq_false_iff.mpr hpre
        | j + 1 => simpa using ih hi j (by omega)

theorem strIndex_none {sub s : List Char} (hsub : sub ≠ [])
    (h : strIndex sub s = none) :
    ∀ i, sub.isPrefixOf (s.drop i) = false := by
  induction s with
  | nil =>
    intro i
    simp only [List.drop_nil]
    match sub with
    | [] => exact absurd rfl hsub
    | a :: u => rfl
  | cons c t ih =>
    intro i
    by_cases hpre : sub.isPrefixOf (c :: t) = true
    · rw [strIndex_cons_pos hpre] at h
      simp at h
    · rw [strIndex_cons_neg (Bool.eq_false_iff.mpr hpre)] at h
      match hi : strIndex sub t with
      | some j => rw [hi] at h; simp at h
      | Option.none =>
        match i with
        | 0 => simpa using Bool.eq_false_iff.mpr hpre
        | i + 1 => simpa using ih hi i

theorem optionsMarker_length : optionsMarker.length = 10 := rfl

theorem optionsMarker_ne_nil : optionsMarker ≠ [] := by
  simp [optionsMarker]

/-- The marker cannot overlap itself: no occurrence starts strictly
inside another occurrence, nor at its final character. -/
theorem marker_no_overlap (rest : List Char) (k : Nat) (h1 : 1 ≤ k) (h2 : k ≤ 9) :
    optionsMarker.isPrefixOf (optionsMarker.drop k ++ rest) = false := by
  interval_cases k <;> rfl

theorem prefix_of_isPrefixOf {p s : List Char} (h : p.isPrefixOf s = true) :
    ∃ rest, s = p ++ rest := by
  have h' : p <+: s := by simpa using h
  obtain ⟨rest, hr⟩ := h'
  exact ⟨rest, hr.symm⟩

theorem no_overlap_at {s : List Char} {idx : Nat}
    (h : optionsMarker.isPrefixOf (s.drop idx) = true) :
    ∀ k, 1 ≤ k → k ≤ 9 → optionsMarker.isPrefixOf (s.drop (idx + k)) = false := by
  intro k hk1 hk9
  obtain ⟨rest, hr⟩ := prefix_of_isPrefixOf h
  have hdd : s.drop (idx + k) = (s.drop idx).drop k := by
    rw [List.drop_drop]
  rw [hdd, hr]
  have hlen : k ≤ optionsMarker.length := by rw [optionsMarker_length]; omega
  rw [List.drop_append_of_le_length hlen]
  exact marker_no_overlap rest k hk1 hk9

theorem prefix_length_le {s : List Char} {idx : Nat}
    (h : optionsMarker.isPrefixOf (s.drop idx) = true) :
    idx + 10 ≤ s.length := by
  obtain ⟨rest, hr⟩ := prefix_of_isPrefixOf h
  have h1 : (s.drop idx).length = s.length - idx := List.length_drop idx s
  have h2 : (s.drop idx).length = 10 + rest.length := by
    rw [hr, List.length_append, optionsMarker_length]
  by_cases hli : idx ≤ s.length
  · omega
  · exfalso
    have hnil : s.drop idx = [] := List.drop_eq_nil_of_le (by omega)
    rw [hnil] at hr
    exact optionsMarker_ne_nil (List.append_eq_nil.mp hr.symm).1

/-- Positions in `occ` carry the marker. -/
theorem occ_mem_found {s : List Char} {i : Nat} (h : i ∈ occ s) :
    optionsMarker.isPrefixOf (s.drop i) = true := by
  induction s generalizing i with
  | nil => simp [occ] at h
  | cons c t ih =>
    by_cases hpre : optionsMarker.isPrefixOf (c :: t) = true
    · rw [occ_cons_pos hpre] at h
      rcases List.mem_cons.mp h with h0 | hmem
      · subst h0; simpa using hpre
      · obtain ⟨j, hj, rfl⟩ := List.mem_map.mp hmem
        simpa using ih hj
    · rw [occ_cons_neg (Bool.eq_false_iff.mpr hpre)] at h
      obtain ⟨j, hj, rfl⟩ := List.mem_map.mp h
      simpa using ih hj

/-- `occ` is exactly the increasing enumeration of all marker
positions. -/
theorem occ_eq_filter (s : List Char) :
    occ s = (List.range s.length).filter
      (fun i => optionsMarker.isPrefixOf (s.drop i)) := by
  induction s with
  | nil => simp [occ]
  | cons c t ih =>
    have hcomp : ∀ i : Nat,
        optionsMarker.isPrefixOf ((c :: t).drop (i + 1))
          = optionsMarker.isPrefixOf (t.drop i) := by
      intro i
      rfl
    by_cases hpre : optionsMarker.isPrefixOf (c :: t) = true
    · rw [occ_cons_pos hpre, List.length_cons, List.range_succ_eq_map,
        List.filter_cons]
      rw [if_pos (by simpa using hpre)]
      congr 1
      rw [List.filter_map, ih]
      simp only [Function.comp_def, hcomp, Nat.succ_eq_add_one]
    · rw [occ_cons_neg (Bool.eq_false_iff.mpr hpre), List.length_cons,
        List.range_succ_eq_map, List.filter_cons]
      rw [if_neg (by simpa using hpre)]
      rw [List.filter_map, ih]
      simp only [Function.comp_def, hcomp, Nat.succ_eq_add_one]

theorem occ_nil_of_strIndex_none {s : List Char}
    (h : strIndex optionsMarker s = none) : occ s = [] := by
  rw [occ_eq_filter, List.filter_eq_nil_iff]
  intro i _
  simp [strIndex_none optionsMarker_ne_nil h i]

/-- If no marker occurs at positions `< k`, the occurrences of `s` are
the occurrences of `s.drop k` shifted by `k`. -/
theorem occ_skip (k : Nat) :
    ∀ (s : List Char),
      (∀ j, j < k → optionsMarker.isPrefixOf (s.drop j) = false) →
      occ s = (occ (s.drop k)).map (· + k) := by
  induction k with
  | zero =>
    intro s _
    simp
  | succ k ih =>
    intro s hnone
    match s with
    | [] => simp [occ]
    | c :: t =>
      have h0 : optionsMarker.isPrefixOf (c :: t) = false := by
        simpa using hnone 0 (by omega)
      rw [occ_cons_neg h0]
      have ht : ∀ j, j < k → optionsMarker.isPrefixOf (t.drop j) = false := by
        intro j hj
        simpa using hnone (j + 1) (by omega)
      rw [ih t ht]
      have hdt : (c :: t).drop (k + 1) = t.drop k := by simp
      rw [hdt, List.map_map]
      congr 1

/-- Scan-order decomposition of the occurrence list at the first
marker position. -/
theorem occ_decomp {s : List Char} {idx : Nat}
    (h : strIndex optionsMarker s = some idx) :
    occ s = idx :: (occ (s.drop (idx + 9))).map (· + (idx + 9)) := by
  induction s generalizing idx with
  | nil =>
    unfold strIndex at h
    split at h
    · rename_i hp
      simp [optionsMarker] at hp
    · simp at h
  | cons c t ih =>
    by_cases hpre : optionsMarker.isPrefixOf (c :: t) = true
    · rw [strIndex_cons_pos hpre] at h
      simp only [Option.some.injEq] at h
      subst h
      have hp' : optionsMarker.isPrefixOf ((c :: t).drop 0) = true := by
        simpa using hpre
      rw [occ_cons_pos hpre]
      congr 1
      have ht : ∀ j, j < 8 → optionsMarker.isPrefixOf (t.drop j) = false := by
        intro j hj
        have := no_overlap_at hp' (j + 1) (by omega) (by omega)
        simpa using this
      rw [occ_skip 8 t ht]
      have hdt : (c :: t).drop (0 + 9) = t.drop 8 := by simp
      rw [hdt, List.map_map]
      congr 1
    · rw [strIndex_cons_neg (Bool.eq_false_iff.mpr hpre)] at h
      match hi : strIndex optionsMarker t with
      | Option.none => rw [hi] at h; simp at h
      | some j =>
        rw [hi] at h
        simp only [Option.map_some', Option.some.injEq] at h
        subst h
        rw [occ_cons_neg (Bool.eq_false_iff.mpr hpre), ih hi]
        have hdt : (c :: t).drop (j + 1 + 9) = t.drop (j + 9) := by
          have : j + 1 + 9 = (j + 9) + 1 := by omega
          rw [this]
          simp
        rw [hdt, List.map_cons, List.map_map]
        congr 2

/-! ## The scan loop returns the last successful candidate -/

theorem succList_decomp {s : List Char} {idx : Nat}
    (h : strIndex optionsMarker s = some idx) :
    succList s = (match decodeCandidate (s.drop idx) with
      | some o => [o]
      | Option.none => []) ++ succList (s.drop (idx + 9)) := by
  unfold succList
  rw [occ_decomp h, List.filterMap_cons, List.filterMap_map]
  have hfun : ∀ i : Nat,
      decodeCandidate (s.drop (i + (idx + 9))) = decodeCandidate ((s.drop (idx + 9)).drop i) := by
    intro i
    rw [List.drop_drop]
    congr 2
    omega
  cases hdc : decodeCandidate (s.drop idx) with
  | none =>
    simp only [List.nil_append]
    congr 1
    funext i
    simp only [Function.comp_def]
    exact hfun i
  | some o =>
    simp only [List.cons_append, List.nil_append]
    congr 1
    congr 1
    funext i
    simp only [Function.comp_def]
    exact hfun i

theorem scanLoop_eq_getLastD :
    ∀ (fuel : Nat) (s : List Char) (acc : List OptionEntry),
      s.length < fuel →
      scanLoop fuel s acc = (succList s).getLastD acc := by
  intro fuel
  induction fuel with
  | zero =>
    intro s acc h
    omega
  | succ fuel ih =>
    intro s acc hlen
    unfold scanLoop
    match hfind : strIndex optionsMarker s with
    | Option.none =>
      simp only
      unfold succList
      rw [occ_nil_of_strIndex_none hfind]
      rfl
    | some idx =>
      simp only
      have hpre := strIndex_some_found hfind
      have hbound := prefix_length_le hpre
      have hdroplen : (s.drop (idx + markerSkip)).length < fuel := by
        rw [List.length_drop]
        unfold markerSkip
        omega
      rw [ih (s.drop (idx + markerSkip)) _ hdroplen]
      rw [succList_decomp hfind]
      cases hdc : decodeCandidate (s.drop idx) with
      | none => simp [markerSkip]
      | some o =>
        simp only [markerSkip, List.cons_append, List.nil_append]
        cases hsd : succList (s.drop (idx + 9)) with
        | nil => simp
        | cons x xs => simp only [List.getLastD_cons]

/-- Elements of `succList` are non-empty option lists. -/
theorem succList_mem_ne_nil {s : List Char} {o : List OptionEntry}
    (h : o ∈ succList s) : o ≠ [] := by
  unfold succList at h
  obtain ⟨i, -, hdc⟩ := List.mem_filterMap.mp h
  unfold decodeCandidate at hdc
  cases hg : goDecode (s.drop i) with
  | none => rw [hg] at hdc; simp at hdc
  | some opts =>
    rw [hg] at hdc
    simp only at hdc
    split at hdc
    · rename_i hlen
      simp only [Option.some.injEq] at hdc
      subst hdc
      intro hnil
      have hlen2 := List.length_insertionSort goLE opts
      unfold rankSort at hnil
      rw [hnil] at hlen2
      simp at hlen2
      omega
    · simp at hdc

/-- `parseOptions` is exactly: the last candidate (in scan order) whose
decode succeeds with a non-empty options array, or the parse error. -/
theorem parseOptions_characterization (raw : List Char) :
    parseOptions raw = match (succList raw).getLast? with
      | some opts => Except.ok opts
      | Option.none => Except.error "failed to parse options JSON".data := by
  unfold parseOptions
  rw [scanLoop_eq_getLastD (raw.length + 1) raw [] (by omega)]
  cases hsl : (succList raw).getLast? with
  | none =>
    rw [List.getLast?_eq_none_iff] at hsl
    rw [hsl]
    simp
  | some o =>
    have hne : o ≠ [] :=
      succList_mem_ne_nil (List.mem_of_getLast?_eq_some hsl)
    have hd : (succList raw).getLastD [] = o := by
      rw [List.getLastD_eq_getLast?, hsl]
      rfl
    simp only [hd]
    rw [if_pos]
    cases o with
    | nil => exact absurd rfl hne
    | cons a l => simp

/-- A successful parse yields a non-empty list. -/
theorem parseOptions_ok_ne_nil {raw : List Char} {opts : List OptionEntry}
    (h : parseOptions raw = Except.ok opts) : opts ≠ [] := by
  unfold parseOptions at h
  simp only [] at h
  split at h
  · simp only [Except.ok.injEq] at h
    subst h
    rename_i hpos
    intro hnil
    rw [hnil] at hpos
    simp at hpos
  · simp at h

/-! ## The ranking order -/

theorem goLess_iff (a b : OptionEntry) :
    goLess a b = true ↔
      (0 < a.recommendationOrder ∧ 0 < b.recommendationOrder ∧
        a.recommendationOrder < b.recommendationOrder) ∨
      (0 < a.recommendationOrder ∧ b.recommendationOrder ≤ 0) := by
  unfold goLess
  dsimp only
  split_ifs <;> simp_all

theorem goLE_iff (a b : OptionEntry) :
    goLE a b ↔
      ¬ ((0 < b.recommendationOrder ∧ 0 < a.recommendationOrder ∧
          b.recommendationOrder < a.recommendationOrder) ∨
        (0 < b.recommendationOrder ∧ a.recommendationOrder ≤ 0)) := by
  unfold goLE
  rw [← goLess_iff]
  simp

theorem goLE_total (a b : OptionEntry) : goLE a b ∨ goLE b a := by
  rw [goLE_iff, goLE_iff]
  omega

theorem goLE_trans (a b c : OptionEntry) (hab : goLE a b) (hbc : goLE b c) :
    goLE a c := by
  rw [goLE_iff] at *
  omega

theorem rankSort_perm (l : List OptionEntry) : List.Perm (rankSort l) l :=
  List.perm_insertionSort goLE l

theorem rankSort_sorted (l : List OptionEntry) : (rankSort l).Sorted goLE := by
  letI : IsTotal OptionEntry goLE := ⟨goLE_total⟩
  letI : IsTrans OptionEntry goLE := ⟨goLE_trans⟩
  exact List.sorted_insertionSort goLE l

theorem rankSort_stable {l c : List OptionEntry}
    (hc : c.Pairwise goLE) (hsub : c.Sublist l) : c.Sublist (rankSort l) :=
  List.sublist_insertionSort hc hsub

/-! ## `cleanText` is idempotent -/

theorem goIsSpace_space : goIsSpace ' ' = true := rfl

theorem goIsSpace_nl : goIsSpace '\n' = true := rfl

/-- Words produced by the field splitter are non-empty and free of
white space (provided the accumulated current word is). -/
theorem fieldsAux_words :
    ∀ (s cur : List Char), (∀ c ∈ cur, goIsSpace c = false) →
      ∀ w ∈ fieldsAux s cur, w ≠ [] ∧ ∀ c ∈ w, goIsSpace c = false := by
  intro s
  induction s with
  | nil =>
    intro cur hcur w hw
    unfold fieldsAux at hw
    split at hw
    · simp at hw
    · rename_i hne
      rcases List.mem_singleton.mp hw with rfl
      constructor
      · simpa using hne
      · intro c hc
        exact hcur c (List.mem_reverse.mp hc)
  | cons a t ih =>
    intro cur hcur w hw
    unfold fieldsAux at hw
    split at hw
    · split at hw
      · exact ih [] (by simp) w hw
      · rename_i hne
        rcases List.mem_cons.mp hw with rfl | hmem
        · constructor
          · simpa using hne
          · intro c hc
            exact hcur c (List.mem_reverse.mp hc)
        · exact ih [] (by simp) w hmem
    · rename_i hsp
      refine ih (a :: cur) ?_ w hw
      intro c hc
      rcases List.mem_cons.mp hc with rfl | hmem
      · exact Bool.eq_false_iff.mpr hsp
      · exact hcur c hmem

theorem fields_words (s : List Char) :
    ∀ w ∈ fields s, w ≠ [] ∧ ∀ c ∈ w, goIsSpace c = false :=
  fieldsAux_words s [] (by simp)

/-- Consuming a white-space-free word prepends it (reversed) to the
current word. -/
theorem fieldsAux_word_append :
    ∀ (w r cur : List Char), (∀ c ∈ w, goIsSpace c = false) →
      fieldsAux (w ++ r) cur = fieldsAux r (w.reverse ++ cur) := by
  intro w
  induction w with
  | nil => intro r cur _; simp
  | cons a w' ih =>
    intro r cur hns
    have ha : goIsSpace a = false := hns a (List.mem_cons_self a w')
    rw [List.cons_append]
    have h1 : fieldsAux (a :: (w' ++ r)) cur = fieldsAux (w' ++ r) (a :: cur) := by
      simp only [fieldsAux]
      rw [if_neg (by simp [ha])]
    rw [h1, ih r (a :: cur) (fun c hc => hns c (List.mem_cons_of_mem a hc))]
    congr 1
    simp

/-- Splitting a single-space join of good words recovers the words. -/
theorem fields_joinSp :
    ∀ ws : List (List Char),
      (∀ w ∈ ws, w ≠ [] ∧ ∀ c ∈ w, goIsSpace c = false) →
      fields (joinSp ws) = ws := by
  intro ws
  induction ws with
  | nil => intro _; rfl
  | cons w ws' ih =>
    intro hgood
    have hw := hgood w (List.mem_cons_self w ws')
    match ws' with
    | [] =>
      show fields w = [w]
      unfold fields
      rw [show w = w ++ [] by simp, fieldsAux_word_append w [] [] hw.2]
      unfold fieldsAux
      rw [if_neg (by simpa using hw.1)]
      simp
    | w' :: ws'' =>
      have hgood' : ∀ u ∈ w' :: ws'', u ≠ [] ∧ ∀ c ∈ u, goIsSpace c = false :=
        fun u hu => hgood u (List.mem_cons_of_mem w hu)
      show fields (w ++ ' ' :: joinSp (w' :: ws'')) = w :: w' :: ws''
      unfold fields
      rw [fieldsAux_word_append w _ [] hw.2]
      show fieldsAux (' ' :: joinSp (w' :: ws'')) (w.reverse ++ []) = _
      have h2 : fieldsAux (' ' :: joinSp (w' :: ws'')) (w.reverse ++ [])
          = (w.reverse ++ []).reverse :: fieldsAux (joinSp (w' :: ws'')) [] := by
        simp only [fieldsAux]
        rw [if_pos goIsSpace_space, if_neg (by simpa using hw.1)]
      rw [h2]
      have hrev : (w.reverse ++ ([] : List Char)).reverse = w := by simp
      rw [hrev]
      have h3 := ih hgood'
      unfold fields at h3
      rw [h3]

/-- A list whose first character (if any) is not white space is
unchanged by `dropWhile goIsSpace`. -/
theorem dropWhile_eq_self_of_head :
    ∀ l : List Char, (∀ c, l.head? = some c → goIsSpace c = false) →
      l.dropWhile goIsSpace = l := by
  intro l hl
  match l with
  | [] => rfl
  | c :: t =>
    rw [List.dropWhile_cons, if_neg (by simp [hl c rfl])]

theorem joinSp_head? {ws : List (List Char)}
    (hgood : ∀ w ∈ ws, w ≠ [] ∧ ∀ c ∈ w, goIsSpace c = false) :
    ∀ c, (joinSp ws).head? = some c → goIsSpace c = false := by
  match ws with
  | [] => intro c hc; simp [joinSp] at hc
  | w :: ws' =>
    intro c hc
    have hw := hgood w (List.mem_cons_self w ws')
    have hhead : (joinSp (w :: ws')).head? = w.head? := by
      match ws' with
      | [] => rfl
      | w' :: ws'' =>
        show (w ++ ' ' :: joinSp (w' :: ws'')).head? = w.head?
        match w, hw.1 with
        | a :: u, _ => rfl
    rw [hhead] at hc
    exact hw.2 c (List.mem_of_mem_head? hc)

theorem joinSp_getLast? {ws : List (List Char)}
    (hgood : ∀ w ∈ ws, w ≠ [] ∧ ∀ c ∈ w, goIsSpace c = false) :
    ∀ c, (joinSp ws).getLast? = some c → goIsSpace c = false := by
  induction ws with
  | nil => intro c hc; simp [joinSp] at hc
  | cons w ws' ih =>
    intro c hc
    have hw := hgood w (List.mem_cons_self w ws')
    match ws' with
    | [] =>
      exact hw.2 c (List.mem_of_getLast?_eq_some hc)
    | w' :: ws'' =>
      have hgood' : ∀ u ∈ w' :: ws'', u ≠ [] ∧ ∀ c ∈ u, goIsSpace c = false :=
        fun u hu => hgood u (List.mem_cons_of_mem w hu)
      have hne : joinSp (w' :: ws'') ≠ [] := by
        have hw' := hgood' w' (List.mem_cons_self w' ws'')
        match w', hw'.1 with
        | a :: u, _ =>
          match ws'' with
          | [] => simp [joinSp]
          | z :: zs => simp [joinSp]
      have hlast : (joinSp (w :: w' :: ws'')).getLast? = (joinSp (w' :: ws'')).getLast? := by
        show (w ++ ' ' :: joinSp (w' :: ws'')).getLast? = _
        rw [List.getLast?_append_cons]
        match hj : joinSp (w' :: ws''), hne with
        | a :: u, _ => rw [List.getLast?_cons_cons]
      rw [hlast] at hc
      exact ih hgood' c hc

/-- Trimming a good join is the identity. -/
theorem trimSpace_joinSp {ws : List (List Char)}
    (hgood : ∀ w ∈ ws, w ≠ [] ∧ ∀ c ∈ w, goIsSpace c = false) :
    trimSpace (joinSp ws) = joinSp ws := by
  unfold trimSpace
  rw [dropWhile_eq_self_of_head _ (joinSp_head? hgood)]
  rw [dropWhile_eq_self_of_head _ (by
    intro c hc
    rw [List.head?_reverse] at hc
    exact joinSp_getLast? hgood c hc)]
  simp

/-- Characters of a good join are word characters or the separator. -/
theorem joinSp_mem {ws : List (List Char)} {c : Char}
    (hc : c ∈ joinSp ws) : c = ' ' ∨ ∃ w ∈ ws, c ∈ w := by
  induction ws with
  | nil => simp [joinSp] at hc
  | cons w ws' ih =>
    match ws' with
    | [] =>
      right
      exact ⟨w, List.mem_cons_self w [], hc⟩
    | w' :: ws'' =>
      rcases List.mem_append.mp hc with hmem | hmem
      · right
        exact ⟨w, List.mem_cons_self w _, hmem⟩
      · rcases List.mem_cons.mp hmem with rfl | hmem'
        · left; rfl
        · rcases ih hmem' with h | ⟨u, hu, hcu⟩
          · left; exact h
          · right; exact ⟨u, List.mem_cons_of_mem w hu, hcu⟩

/-- Replacing newlines in a good join is the identity (no word contains
a newline, and the separator is a space). -/
theorem replaceNlSp_joinSp {ws : List (List Char)}
    (hgood : ∀ w ∈ ws, w ≠ [] ∧ ∀ c ∈ w, goIsSpace c = false) :
    replaceNlSp (joinSp ws) = joinSp ws := by
  unfold replaceNlSp
  have hfix : ∀ c ∈ joinSp ws, (if c = '\n' then ' ' else c) = id c := by
    intro c hc
    rcases joinSp_mem hc with rfl | ⟨w, hw, hcw⟩
    · rfl
    · simp only [id]
      rw [if_neg]
      intro hceq
      subst hceq
      have := (hgood w hw).2 '\n' hcw
      rw [goIsSpace_nl] at this
      exact Bool.true_eq_false.mp this
  rw [List.map_congr_left hfix, List.map_id]

theorem cleanText_idem (s : List Char) :
    cleanText (cleanText s) = cleanText s := by
  have hgood := fields_words (replaceNlSp (trimSpace s))
  show cleanText (joinSp (fields (replaceNlSp (trimSpace s)))) = _
  unfold cleanText
  rw [trimSpace_joinSp hgood, replaceNlSp_joinSp hgood, fields_joinSp _ hgood]

/-! ## Selection-index safety -/

theorem length_pos_of_ne_nil {l : List OptionEntry} (h : l ≠ []) :
    0 < (l.length : Int) := by
  have := List.length_pos.mpr h
  omega

theorem selInv_moveSelection {m : Model} (h : SelInv m) {delta : Int}
    (hd : delta = 1 ∨ delta = -1) : SelInv (moveSelection m delta) := by
  unfold moveSelection
  split_ifs with hlen
  · exact h
  · have hne : m.options ≠ [] := by
      intro hnil
      rw [hnil] at hlen
      simp at hlen
    have h0 := h.1
    have h1 := h.2 hne
    have hpos : 0 < (m.options.length : Int) := length_pos_of_ne_nil hne
    constructor
    · exact Int.tmod_nonneg _ (by omega)
    · intro _
      simpa using Int.tmod_lt_of_pos (m.selected + delta + m.options.length) hpos

theorem selInv_handleResponse (m : Model) (output : List Char)
    (err : Option (List Char)) (cli : List Char) :
    SelInv (handleResponse m output err cli).1 := by
  unfold handleResponse
  cases err with
  | some e =>
    dsimp only
    exact ⟨by simp, by simp⟩
  | none =>
    dsimp only
    cases hp : parseOptions (trimSpace output) with
    | error pe => exact ⟨by simp, by simp⟩
    | ok opts =>
      dsimp only
      split_ifs with hauto
      · refine ⟨by simp, ?_⟩
        intro hne
        simp only
        exact length_pos_of_ne_nil (by simpa using hne)
      · refine ⟨by simp, ?_⟩
        intro hne
        simp only
        exact length_pos_of_ne_nil (by simpa using hne)

theorem selInv_submitPrompt {m : Model} (h : SelInv m) :
    SelInv (submitPrompt m).1 := by
  unfold submitPrompt
  dsimp only
  split_ifs with hblank
  · exact h
  · exact ⟨by simp, by simp⟩

theorem selInv_handleInputKeys {m : Model} (h : SelInv m) (k : GoKey) :
    SelInv (handleInputKeys m k).1 := by
  cases k with
  | ctrlC => exact h
  | esc => exact h
  | ctrlN =>
    unfold handleInputKeys nextCLI
    split_ifs <;> exact ⟨h.1, h.2⟩
  | ctrlP =>
    unfold handleInputKeys prevCLI
    split_ifs <;> exact ⟨h.1, h.2⟩
  | nl => exact ⟨h.1, h.2⟩
  | ctrlR => exact selInv_submitPrompt ⟨h.1, h.2⟩
  | enterKey => exact selInv_submitPrompt ⟨h.1, h.2⟩
  | ctrlEnter => exact selInv_submitPrompt ⟨h.1, h.2⟩
  | otherKey edit => exact ⟨h.1, h.2⟩
  | qKey => exact h
  | upKey => exact h
  | downKey => exact h
  | jK => exact h
  | kK => exact h

theorem selInv_handleViewingKeys {m : Model} (h : SelInv m) (k : GoKey)
    (clip : Bool) : SelInv (handleViewingKeys m k clip).1 := by
  cases k with
  | ctrlC => exact h
  | esc => exact h
  | qKey => exact h
  | nl => exact ⟨h.1, by simp [handleViewingKeys]⟩
  | ctrlR =>
    unfold handleViewingKeys
    dsimp only
    split_ifs <;> exact ⟨h.1, h.2⟩
  | enterKey =>
    unfold handleViewingKeys
    dsimp only
    split_ifs <;> exact ⟨h.1, h.2⟩
  | upKey => exact selInv_moveSelection h (Or.inr rfl)
  | kK => exact selInv_moveSelection h (Or.inr rfl)
  | downKey => exact selInv_moveSelection h (Or.inl rfl)
  | jK => exact selInv_moveSelection h (Or.inl rfl)
  | ctrlN => exact h
  | ctrlP => exact h
  | ctrlEnter => exact h
  | otherKey edit => exact h

theorem selInv_handleRunningKeys {m : Model} (h : SelInv m) (k : GoKey) :
    SelInv (handleRunningKeys m k).1 := by
  cases k <;> exact h

theorem selInv_update {m : Model} (h : SelInv m) (msg : Msg) :
    SelInv (update m msg).1 := by
  cases msg with
  | winSize w ht => exact ⟨h.1, h.2⟩
  | tick =>
    unfold update
    dsimp only
    split_ifs <;> exact ⟨h.1, h.2⟩
  | resp output err cli => exact selInv_handleResponse m output err cli
  | execRes err exit =>
    unfold update
    cases err with
    | some e => exact ⟨h.1, h.2⟩
    | none =>
      dsimp only
      split_ifs <;> exact h
  | keyMsg k clip =>
    unfold update handleKeyMsg
    cases m.mode with
    | modeInput => exact selInv_handleInputKeys h k
    | modeRunning => exact selInv_handleRunningKeys h k
    | modeViewing => exact selInv_handleViewingKeys h k clip

theorem selInv_initModel (names : List (List Char)) (idx0 : Int) :
    SelInv (initModel names idx0) := by
  exact ⟨by simp [initModel], by simp [initModel]⟩

theorem selInv_reachable {m : Model} (h : Reachable m) : SelInv m := by
  induction h with
  | init names idx0 hne h0 hlt => exact selInv_initModel names idx0
  | step m' msg hr ih => exact selInv_update ih msg

/-! ## Claim theorems -/

/-- C1: for every input text, `parseOptions` returns the options of the
last candidate — in left-to-right scan order of occurrences of the
`{"options"` marker (`occ` enumerates exactly those occurrences in
increasing order) — whose decode yields a non-empty options array; in
particular, for text with two sequential well-formed options objects it
returns the second one's options, never the first, and a later candidate
that fails to decode does not overwrite an earlier successful one. -/
theorem claim_C1 :
    (∀ s : List Char, occ s = (List.range s.length).filter
        (fun i => optionsMarker.isPrefixOf (s.drop i)))
    ∧ (∀ raw : List Char,
        parseOptions raw = match (succList raw).getLast? with
          | some opts => Except.ok opts
          | Option.none => Except.error "failed to parse options JSON".data)
    ∧ parseOptions
        "noise \x7b\"options\":[\x7b\"value\":\"a\"\x7d]\x7d mid \x7b\"options\":[\x7b\"value\":\"b\"\x7d]\x7d tail".data
        = Except.ok [⟨"b".data, [], 0⟩]
    ∧ parseOptions
        "\x7b\"options\":[\x7b\"value\":\"first\"\x7d]\x7d then \x7b\"options\": broken".data
        = Except.ok [⟨"first".data, [], 0⟩] := by
  refine ⟨occ_eq_filter, parseOptions_characterization, ?_, ?_⟩
  · rfl
  · rfl

/-- C7: when no candidate decodes to a non-empty options array — in
particular for text without the marker, a candidate missing a decodable
options value, a non-array options value, or a zero-length array —
`parseOptions` returns the parse error and no options. -/
theorem claim_C7 :
    (∀ raw : List Char,
        (∀ i ∈ occ raw, decodeCandidate (raw.drop i) = Option.none) →
        parseOptions raw = Except.error "failed to parse options JSON".data)
    ∧ parseOptions "there is no marker in this text".data
        = Except.error "failed to parse options JSON".data
    ∧ parseOptions "\x7b\"options\"\x7d".data
        = Except.error "failed to parse options JSON".data
    ∧ parseOptions "\x7b\"options\":3\x7d".data
        = Except.error "failed to parse options JSON".data
    ∧ parseOptions "\x7b\"options\":[]\x7d".data
        = Except.error "failed to parse options JSON".data := by
  refine ⟨?_, rfl, rfl, rfl, rfl⟩
  intro raw hnone
  rw [parseOptions_characterization raw]
  have hnil : succList raw = [] := by
    unfold succList
    rw [List.filterMap_eq_nil_iff]
    exact hnone
  rw [hnil]
  rfl

theorem claim_C7_witness :
    parseOptions "plain text answer".data
      = Except.error "failed to parse options JSON".data :=
  claim_C7.1 "plain text answer".data (by decide)

/-- C9: `parseOptions` can succeed only when the raw text contains the
exact literal substring `{"options"`; a JSON object formatted any other
way — with a space after the brace, or listing another key first — is
never found as a candidate, and the parse reports the not-found error. -/
theorem claim_C9 :
    (∀ (raw : List Char) (opts : List OptionEntry),
        parseOptions raw = Except.ok opts →
        optionsMarker <:+: raw)
    ∧ parseOptions "\x7b \"options\":[\x7b\"value\":\"x\"\x7d]\x7d".data
        = Except.error "failed to parse options JSON".data
    ∧ parseOptions "\x7b\"first\":1,\"options\":[\x7b\"value\":\"x\"\x7d]\x7d".data
        = Except.error "failed to parse options JSON".data := by
  refine ⟨?_, rfl, rfl⟩
  intro raw opts hok
  rw [parseOptions_characterization raw] at hok
  match hgl : (succList raw).getLast? with
  | Option.none => rw [hgl] at hok; simp at hok
  | some o =>
    have hmem := List.mem_of_getLast?_eq_some hgl
    unfold succList at hmem
    obtain ⟨i, hi, -⟩ := List.mem_filterMap.mp hmem
    have hpre := occ_mem_found hi
    have h1 : optionsMarker <+: raw.drop i := by simpa using hpre
    exact h1.isInfix.trans (List.drop_suffix i raw).isInfix

theorem claim_C9_witness :
    optionsMarker <:+:
      "ok \x7b\"options\":[\x7b\"value\":\"x\"\x7d]\x7d".data :=
  claim_C9.1 "ok \x7b\"options\":[\x7b\"value\":\"x\"\x7d]\x7d".data
    [⟨"x".data, [], 0⟩] (by rfl)

/-- C2: the ranking is a stable, deterministic sort under the order: two
positive ranks compare by value (lower first), a positive rank precedes a
non-positive one, and otherwise the original decode order is kept
(`goLess` mirrors the source comparator, whose `i < j` tie clause is
stability).  The concrete rank vectors `[3,1,2]`, `[0,0,0]` and `[0,5,0]`
sort to original-index orders `[1,2,0]`, `[0,1,2]` and `[1,0,2]`. -/
theorem claim_C2 :
    (∀ a b : OptionEntry, goLess a b = true ↔
      (0 < a.recommendationOrder ∧ 0 < b.recommendationOrder ∧
        a.recommendationOrder < b.recommendationOrder) ∨
      (0 < a.recommendationOrder ∧ b.recommendationOrder ≤ 0))
    ∧ (∀ l : List OptionEntry, List.Perm (rankSort l) l)
    ∧ (∀ l : List OptionEntry, (rankSort l).Sorted goLE)
    ∧ (∀ l c : List OptionEntry, c.Pairwise goLE → c.Sublist l →
        c.Sublist (rankSort l))
    ∧ rankSort [⟨"a".data, [], 3⟩, ⟨"b".data, [], 1⟩, ⟨"c".data, [], 2⟩]
        = [⟨"b".data, [], 1⟩, ⟨"c".data, [], 2⟩, ⟨"a".data, [], 3⟩]
    ∧ rankSort [⟨"a".data, [], 0⟩, ⟨"b".data, [], 0⟩, ⟨"c".data, [], 0⟩]
        = [⟨"a".data, [], 0⟩, ⟨"b".data, [], 0⟩, ⟨"c".data, [], 0⟩]
    ∧ rankSort [⟨"a".data, [], 0⟩, ⟨"b".data, [], 5⟩, ⟨"c".data, [], 0⟩]
        = [⟨"b".data, [], 5⟩, ⟨"a".data, [], 0⟩, ⟨"c".data, [], 0⟩] := by
  exact ⟨goLess_iff, rankSort_perm, rankSort_sorted,
    fun l c hc hs => rankSort_stable hc hs, by rfl, by rfl, by rfl⟩

theorem claim_C2_witness :
    List.Sublist [⟨"a".data, [], 1⟩]
      (rankSort [⟨"z".data, [], 0⟩, (⟨"a".data, [], 1⟩ : OptionEntry)]) :=
  claim_C2.2.2.2.1 [⟨"z".data, [], 0⟩, ⟨"a".data, [], 1⟩]
    [⟨"a".data, [], 1⟩] (by simp) (by simp)

/-- C8: `cleanText` is idempotent, and it is applied only to displayed
text (the rendered rows), never to the stored option value: the selected
value, the shell command issued by run, and the copied text are the
stored `value` field verbatim. -/
theorem claim_C8 :
    (∀ s : List Char, cleanText (cleanText s) = cleanText s)
    ∧ (∀ m : Model, m.options ≠ [] → 0 ≤ m.selected →
        m.selected < m.options.length →
        selectedValue m = (m.options.getD m.selected.toNat zeroEntry).value)
    ∧ (∀ (m : Model) (clip : Bool), selectedValue m ≠ [] →
        (handleViewingKeys m GoKey.ctrlR clip).2
          = Cmd.execShell (selectedValue m) true)
    ∧ (∀ m : Model, selectedValue m ≠ [] →
        (handleViewingKeys m GoKey.enterKey true).1.status
          = "✅ Copied to clipboard: ".data ++ selectedValue m)
    ∧ (∀ (isSel : Bool) (o : OptionEntry),
        (renderOptionRow isSel o).head?
          = some ((if isSel then "▶ ".data else "  ".data) ++ cleanText o.value)) := by
  refine ⟨cleanText_idem, ?_, ?_, ?_, ?_⟩
  · intro m hne h0 hlt
    unfold selectedValue
    rw [if_neg (by
      intro hz
      exact hne (List.length_eq_zero.mp hz))]
    rw [if_neg (by
      simp only [Bool.or_eq_true, decide_eq_true_eq]
      omega)]
  · intro m clip hsel
    unfold handleViewingKeys
    dsimp only
    rw [if_neg (by simp [hsel])]
    rw [if_neg hsel]
  · intro m hsel
    unfold handleViewingKeys
    dsimp only
    rw [if_neg (by simp [hsel])]
    rw [if_neg hsel, if_pos rfl]
  · intro isSel o
    unfold renderOptionRow
    dsimp only
    split_ifs <;> rfl

theorem claim_C8_witness :
    cleanText (cleanText "  a \n b ".data) = cleanText "  a \n b ".data
    ∧ (handleViewingKeys
        { initModel [['c']] 0 with
            mode := ViewMode.modeViewing,
            options := [⟨"ls  -la".data, [], 1⟩] } GoKey.ctrlR true).2
      = Cmd.execShell (selectedValue
          { initModel [['c']] 0 with
              mode := ViewMode.modeViewing,
              options := [⟨"ls  -la".data, [], 1⟩] }) true :=
  ⟨claim_C8.1 "  a \n b ".data,
    claim_C8.2.2.1
      { initModel [['c']] 0 with
          mode := ViewMode.modeViewing,
          options := [⟨"ls  -la".data, [], 1⟩] } true (by decide)⟩

/-- C3 counterexample: when the subprocess reports an error AND its
combined output is non-empty, the stored raw output is the output text,
not the error's text — so none of the three claimed alternatives
{options non-empty, parse error set, raw output equals the error text}
holds, refuting the claimed trichotomy. -/
theorem claim_C3_counterexample :
    ¬ ExactlyOne
      ((handleResponse (initModel ["codex".data] 0) "tool crashed: see log".data
          (some "exit status 1".data) "codex".data).1.options ≠ [])
      ((handleResponse (initModel ["codex".data] 0) "tool crashed: see log".data
          (some "exit status 1".data) "codex".data).1.lastParseError ≠ Option.none)
      ((handleResponse (initModel ["codex".data] 0) "tool crashed: see log".data
          (some "exit status 1".data) "codex".data).1.rawOutput
        = "exit status 1".data) := by
  unfold ExactlyOne
  decide

/-- C3 amended: after every completion, exactly one of {options
non-empty, parse error set, the subprocess reported an error} holds; and
when the subprocess reports an error with empty (all-white-space)
output, the error's text becomes the displayed raw output. -/
theorem claim_C3_amended :
    (∀ (m : Model) (output : List Char) (err : Option (List Char)) (cli : List Char),
        ExactlyOne
          ((handleResponse m output err cli).1.options ≠ [])
          ((handleResponse m output err cli).1.lastParseError ≠ Option.none)
          (err ≠ Option.none))
    ∧ (∀ (m : Model) (output e cli : List Char),
        trimSpace output = [] →
        (handleResponse m output (some e) cli).1.rawOutput = e) := by
  constructor
  · intro m output err cli
    unfold handleResponse ExactlyOne
    cases err with
    | some e =>
      dsimp only
      right; right
      exact ⟨by simp, by simp, by simp⟩
    | none =>
      dsimp only
      cases hp : parseOptions (trimSpace output) with
      | error pe =>
        dsimp only
        right; left
        exact ⟨by simp, by simp, by simp⟩
      | ok opts =>
        have hne := parseOptions_ok_ne_nil hp
        dsimp only
        split_ifs with hauto
        · left
          exact ⟨by simpa using hne, by simp, by simp⟩
        · left
          exact ⟨by simpa using hne, by simp, by simp⟩
  · intro m output e cli hblank
    unfold handleResponse
    dsimp only
    rw [hblank]
    simp

theorem claim_C3_amended_witness :
    ExactlyOne
      ((handleResponse (initModel ["codex".data] 0) "tool crashed: see log".data
          (some "exit status 1".data) "codex".data).1.options ≠ [])
      ((handleResponse (initModel ["codex".data] 0) "tool crashed: see log".data
          (some "exit status 1".data) "codex".data).1.lastParseError ≠ Option.none)
      ((some "exit status 1".data : Option (List Char)) ≠ Option.none)
    ∧ (handleResponse (initModel ["codex".data] 0) "  ".data
        (some "context deadline exceeded".data) "codex".data).1.rawOutput
      = "context deadline exceeded".data :=
  ⟨claim_C3_amended.1 (initModel ["codex".data] 0) "tool crashed: see log".data
      (some "exit status 1".data) "codex".data,
    claim_C3_amended.2 (initModel ["codex".data] 0) "  ".data
      "context deadline exceeded".data "codex".data (by decide)⟩

/-- C4 counterexample: in `Running` mode a backend-cycle key (ctrl+n) is
ignored — the state (in particular the active runner index) is unchanged
and no command is emitted — refuting the claim that cycling is accepted
while `Running` (and hence that it is possible from every mode). -/
theorem claim_C4_counterexample :
    update
      { initModel ["codex".data, "claude".data] 0 with
          mode := ViewMode.modeRunning, running := true }
      (Msg.keyMsg GoKey.ctrlN true)
    = ({ initModel ["codex".data, "claude".data] 0 with
          mode := ViewMode.modeRunning, running := true }, Cmd.none) := by
  decide

/-- C4 amended: while `Running`, every key except quit (ctrl+c/esc) is
ignored, so a cycle request neither changes the runner index nor affects
the in-flight call; the same holds in `Reviewing`.  Cycling is accepted
only in `Composing`, where ctrl+n advances the index with wrap-around
(truncating modulo the registry size) without changing mode, options or
the running flag; the runner a submission dispatches to is the active
index at submission time, so a `Composing`-mode cycle takes effect on
the next submission. -/
theorem claim_C4_amended :
    (∀ (m : Model) (k : GoKey) (clip : Bool),
        m.mode = ViewMode.modeRunning → k ≠ GoKey.ctrlC → k ≠ GoKey.esc →
        update m (Msg.keyMsg k clip) = (m, Cmd.none))
    ∧ (∀ (m : Model) (clip : Bool), m.mode = ViewMode.modeViewing →
        update m (Msg.keyMsg GoKey.ctrlN clip) = (m, Cmd.none))
    ∧ (∀ (m : Model) (clip : Bool), m.mode = ViewMode.modeInput →
        m.cliNames ≠ [] →
        (update m (Msg.keyMsg GoKey.ctrlN clip)).1.cliIndex
            = (m.cliIndex + 1).tmod m.cliNames.length
          ∧ (update m (Msg.keyMsg GoKey.ctrlN clip)).1.mode = m.mode
          ∧ (update m (Msg.keyMsg GoKey.ctrlN clip)).1.options = m.options
          ∧ (update m (Msg.keyMsg GoKey.ctrlN clip)).1.running = m.running
          ∧ (update m (Msg.keyMsg GoKey.ctrlN clip)).2 = Cmd.none)
    ∧ (∀ m : Model, trimSpace (trimRightNl m.inputVal) ≠ [] →
        (submitPrompt m).2
          = Cmd.dispatch (m.cliNames.getD m.cliIndex.toNat [])
              (buildPrompt (trimRightNl m.inputVal))) := by
  refine ⟨?_, ?_, ?_, ?_⟩
  · intro m k clip hmode hc he
    unfold update handleKeyMsg
    rw [hmode]
    dsimp only
    unfold handleRunningKeys
    cases k with
    | ctrlC => exact absurd rfl hc
    | esc => exact absurd rfl he
    | qKey => rfl
    | ctrlN => rfl
    | ctrlP => rfl
    | nl => rfl
    | ctrlR => rfl
    | enterKey => rfl
    | ctrlEnter => rfl
    | upKey => rfl
    | downKey => rfl
    | jK => rfl
    | kK => rfl
    | otherKey edit => rfl
  · intro m clip hmode
    unfold update handleKeyMsg
    rw [hmode]
    dsimp only
    unfold handleViewingKeys
    rfl
  · intro m clip hmode hne
    unfold update handleKeyMsg
    rw [hmode]
    dsimp only
    unfold handleInputKeys
    dsimp only
    unfold nextCLI
    rw [if_neg (by
      intro hz
      exact hne (List.length_eq_zero.mp hz))]
    dsimp only
    exact ⟨rfl, hmode, rfl, rfl, rfl⟩
  · intro m hne
    unfold submitPrompt
    dsimp only
    rw [if_neg hne]
    rfl

theorem claim_C4_amended_witness :
    update
      { initModel ["codex".data, "claude".data] 1 with
          mode := ViewMode.modeRunning, running := true }
      (Msg.keyMsg GoKey.ctrlN false)
    = ({ initModel ["codex".data, "claude".data] 1 with
          mode := ViewMode.modeRunning, running := true }, Cmd.none) :=
  claim_C4_amended.1
    { initModel ["codex".data, "claude".data] 1 with
        mode := ViewMode.modeRunning, running := true }
    GoKey.ctrlN false rfl (by decide) (by decide)

/-- C5: with the auto-execute flag set at submission time, a completed
response that parses to a (necessarily non-empty) options list
immediately triggers the run command on the top-ranked option with no
manual selection step; if the subprocess erred or parsing failed, the
machine just shows the `Reviewing` display and executes nothing. -/
theorem claim_C5 :
    (∀ (m : Model) (output cli : List Char) (opts : List OptionEntry),
        m.autoExecute = true →
        parseOptions (trimSpace output) = Except.ok opts →
        (update m (Msg.resp output Option.none cli)).2
            = Cmd.execShell (opts.headD zeroEntry).value true
          ∧ (update m (Msg.resp output Option.none cli)).1.mode
              = ViewMode.modeViewing
          ∧ (update m (Msg.resp output Option.none cli)).1.options = opts
          ∧ (update m (Msg.resp output Option.none cli)).1.selected = 0)
    ∧ (∀ (m : Model) (output cli : List Char) (err : Option (List Char)),
        (err ≠ Option.none ∨
          ∀ opts, parseOptions (trimSpace output) ≠ Except.ok opts) →
        (update m (Msg.resp output err cli)).2 = Cmd.none
          ∧ (update m (Msg.resp output err cli)).1.mode
              = ViewMode.modeViewing) := by
  constructor
  · intro m output cli opts hauto hok
    have hne := parseOptions_ok_ne_nil hok
    have hlen : opts.length > 0 := List.length_pos.mpr hne
    unfold update handleResponse
    dsimp only
    rw [hok]
    dsimp only
    rw [hauto]
    rw [if_pos (by simp [hlen])]
    exact ⟨rfl, rfl, rfl, rfl⟩
  · intro m output cli err herr
    unfold update handleResponse
    cases err with
    | some e => exact ⟨rfl, rfl⟩
    | none =>
      dsimp only
      cases hp : parseOptions (trimSpace output) with
      | error pe => exact ⟨rfl, rfl⟩
      | ok opts =>
        exfalso
        rcases herr with h | h
        · exact h rfl
        · exact h opts hp

theorem claim_C5_witness :
    (update
        { initModel ["codex".data] 0 with
            mode := ViewMode.modeRunning, running := true, autoExecute := true }
        (Msg.resp
          "\x7b\"options\":[\x7b\"value\":\"ls -la\",\"description\":\"list\",\"recommendation_order\":1\x7d]\x7d".data
          Option.none "codex".data)).2
      = Cmd.execShell "ls -la".data true
    ∧ (update
        { initModel ["codex".data] 0 with
            mode := ViewMode.modeRunning, running := true, autoExecute := true }
        (Msg.resp "I cannot answer that".data Option.none "codex".data)).2
      = Cmd.none := by
  constructor
  · have h := claim_C5.1
      { initModel ["codex".data] 0 with
          mode := ViewMode.modeRunning, running := true, autoExecute := true }
      "\x7b\"options\":[\x7b\"value\":\"ls -la\",\"description\":\"list\",\"recommendation_order\":1\x7d]\x7d".data
      "codex".data [⟨"ls -la".data, "list".data, 1⟩] rfl (by rfl)
    exact h.1
  · have h := claim_C5.2
      { initModel ["codex".data] 0 with
          mode := ViewMode.modeRunning, running := true, autoExecute := true }
      "I cannot answer that".data "codex".data Option.none
      (Or.inr (fun opts hok => by
        have hev : parseOptions (trimSpace "I cannot answer that".data)
            = Except.error "failed to parse options JSON".data := by rfl
        rw [hev] at hok
        exact Except.noConfusion hok))
    exact h.1

/-- C6: in every reachable state the selected index is non-negative and
in range whenever the options list is non-empty; `moveSelection` is a
no-op with zero options and otherwise wraps via the truncating modulo;
and with zero options `selectedValue` reads nothing out of range (it
returns the empty string). -/
theorem claim_C6 :
    (∀ m : Model, Reachable m →
        0 ≤ m.selected ∧ (m.options ≠ [] → m.selected < m.options.length))
    ∧ (∀ (m : Model) (delta : Int), m.options = [] →
        moveSelection m delta = m)
    ∧ (∀ (m : Model) (delta : Int), m.options ≠ [] →
        (moveSelection m delta).selected
          = (m.selected + delta + m.options.length).tmod m.options.length
        ∧ (moveSelection m delta).options = m.options)
    ∧ (∀ m : Model, m.options = [] → selectedValue m = []) := by
  refine ⟨?_, ?_, ?_, ?_⟩
  · intro m hreach
    exact selInv_reachable hreach
  · intro m delta hnil
    unfold moveSelection
    rw [if_pos (by rw [hnil]; rfl)]
  · intro m delta hne
    unfold moveSelection
    rw [if_neg (by
      intro hz
      exact hne (List.length_eq_zero.mp hz))]
    exact ⟨rfl, rfl⟩
  · intro m hnil
    unfold selectedValue
    rw [if_pos (by rw [hnil]; rfl)]

theorem claim_C6_witness :
    0 ≤ (initModel ["codex".data] 0).selected
    ∧ ((initModel ["codex".data] 0).options ≠ [] →
        (initModel ["codex".data] 0).selected
          < (initModel ["codex".data] 0).options.length) :=
  claim_C6.1 (initModel ["codex".data] 0)
    (Reachable.init ["codex".data] 0 (by decide) (by decide) (by decide))

/-! ## Auxiliary facts about the auto-execute flag -/

theorem autoExec_submitPrompt (m : Model) :
    (submitPrompt m).1.autoExecute = m.autoExecute := by
  unfold submitPrompt
  dsimp only
  split_ifs <;> rfl

theorem autoExec_handleInputKeys (m : Model) (k : GoKey)
    (h : (handleInputKeys m k).1.autoExecute = true) :
    m.autoExecute = true ∨ k = GoKey.ctrlR := by
  cases k with
  | ctrlR => exact Or.inr rfl
  | enterKey =>
    rw [show (handleInputKeys m GoKey.enterKey).1
        = (submitPrompt { m with autoExecute := false }).1 from rfl,
      autoExec_submitPrompt] at h
    exact absurd h (by simp)
  | ctrlEnter =>
    rw [show (handleInputKeys m GoKey.ctrlEnter).1
        = (submitPrompt { m with autoExecute := false }).1 from rfl,
      autoExec_submitPrompt] at h
    exact absurd h (by simp)
  | ctrlC => exact Or.inl h
  | esc => exact Or.inl h
  | qKey => exact Or.inl h
  | ctrlN =>
    left
    rw [show (handleInputKeys m GoKey.ctrlN).1 = nextCLI m from rfl] at h
    unfold nextCLI at h
    split_ifs at h <;> exact h
  | ctrlP =>
    left
    rw [show (handleInputKeys m GoKey.ctrlP).1 = prevCLI m from rfl] at h
    unfold prevCLI at h
    split_ifs at h <;> exact h
  | nl => exact Or.inl h
  | upKey => exact Or.inl h
  | downKey => exact Or.inl h
  | jK => exact Or.inl h
  | kK => exact Or.inl h
  | otherKey edit => exact Or.inl h

theorem autoExec_handleViewingKeys (m : Model) (k : GoKey) (clip : Bool)
    (h : (handleViewingKeys m k clip).1.autoExecute = true) :
    m.autoExecute = true := by
  cases k with
  | nl =>
    rw [show (handleViewingKeys m GoKey.nl clip).1.autoExecute = false from rfl] at h
    exact absurd h (by simp)
  | ctrlR =>
    have hh : (handleViewingKeys m GoKey.ctrlR clip).1.autoExecute
        = m.autoExecute := by
      unfold handleViewingKeys
      dsimp only
      split_ifs <;> rfl
    rw [hh] at h
    exact h
  | enterKey =>
    have hh : (handleViewingKeys m GoKey.enterKey clip).1.autoExecute
        = m.autoExecute := by
      unfold handleViewingKeys
      dsimp only
      split_ifs <;> rfl
    rw [hh] at h
    exact h
  | upKey =>
    have hh : (moveSelection m (-1)).autoExecute = m.autoExecute := by
      unfold moveSelection
      split_ifs <;> rfl
    exact hh ▸ h
  | kK =>
    have hh : (moveSelection m (-1)).autoExecute = m.autoExecute := by
      unfold moveSelection
      split_ifs <;> rfl
    exact hh ▸ h
  | downKey =>
    have hh : (moveSelection m 1).autoExecute = m.autoExecute := by
      unfold moveSelection
      split_ifs <;> rfl
    exact hh ▸ h
  | jK =>
    have hh : (moveSelection m 1).autoExecute = m.autoExecute := by
      unfold moveSelection
      split_ifs <;> rfl
    exact hh ▸ h
  | ctrlC => exact h
  | esc => exact h
  | qKey => exact h
  | ctrlN => exact h
  | ctrlP => exact h
  | ctrlEnter => exact h
  | otherKey edit => exact h

theorem autoExec_handleResponse (m : Model) (output : List Char)
    (err : Option (List Char)) (cli : List Char)
    (h : (handleResponse m output err cli).1.autoExecute = true) :
    m.autoExecute = true := by
  unfold handleResponse at h
  cases err with
  | some e => exact h
  | none =>
    dsimp only at h
    cases hp : parseOptions (trimSpace output) with
    | error pe =>
      rw [hp] at h
      exact h
    | ok opts =>
      rw [hp] at h
      dsimp only at h
      split_ifs at h with hcond
      exact h

theorem handleResponse_cmd_none_of_autoExec_false (m : Model)
    (output : List Char) (err : Option (List Char)) (cli : List Char)
    (h : m.autoExecute = false) :
    (handleResponse m output err cli).2 = Cmd.none := by
  unfold handleResponse
  cases err with
  | some e => rfl
  | none =>
    dsimp only
    cases hp : parseOptions (trimSpace output) with
    | error pe => rfl
    | ok opts =>
      dsimp only
      rw [if_neg (by simp [h])]

theorem handleResponse_exec_clears (m : Model) (output : List Char)
    (err : Option (List Char)) (cli : List Char) (v : List Char) (b : Bool)
    (h : (handleResponse m output err cli).2 = Cmd.execShell v b) :
    (handleResponse m output err cli).1.autoExecute = false := by
  unfold handleResponse at *
  cases err with
  | some e => exact absurd h (by simp)
  | none =>
    dsimp only at *
    cases hp : parseOptions (trimSpace output) with
    | error pe =>
      rw [hp] at h
      dsimp only at h
      exact absurd h (by simp)
    | ok opts =>
      rw [hp] at h
      dsimp only at h ⊢
      split_ifs at h ⊢ with hcond
      rfl

/-- C10: a plain-Enter submission never leads to shell execution without
a further explicit user action: the auto-execute flag is set only by the
`Composing` ctrl+r path, every plain-Enter (and ctrl+enter) submission
clears it, it is cleared again immediately when the one auto-run fires,
it is cleared by the `Reviewing`-to-`Composing` reset, and with the flag
off a completion message never emits an exec command. -/
theorem claim_C10 :
    (∀ m : Model, (handleInputKeys m GoKey.enterKey).1.autoExecute = false
      ∧ (handleInputKeys m GoKey.ctrlEnter).1.autoExecute = false)
    ∧ (∀ (m : Model) (msg : Msg),
        (update m msg).1.autoExecute = true →
        m.autoExecute = true ∨
          (m.mode = ViewMode.modeInput ∧
            ∃ clip, msg = Msg.keyMsg GoKey.ctrlR clip))
    ∧ (∀ (m : Model) (output : List Char) (err : Option (List Char))
        (cli v : List Char) (b : Bool),
        (update m (Msg.resp output err cli)).2 = Cmd.execShell v b →
        (update m (Msg.resp output err cli)).1.autoExecute = false)
    ∧ (∀ (m : Model) (clip : Bool), m.mode = ViewMode.modeViewing →
        (update m (Msg.keyMsg GoKey.nl clip)).1.autoExecute = false)
    ∧ (∀ (m : Model) (output : List Char) (err : Option (List Char))
        (cli : List Char), m.autoExecute = false →
        (update m (Msg.resp output err cli)).2 = Cmd.none) := by
  refine ⟨?_, ?_, ?_, ?_, ?_⟩
  · intro m
    constructor
    · rw [show (handleInputKeys m GoKey.enterKey).1
          = (submitPrompt { m with autoExecute := false }).1 from rfl,
        autoExec_submitPrompt]
    · rw [show (handleInputKeys m GoKey.ctrlEnter).1
          = (submitPrompt { m with autoExecute := false }).1 from rfl,
        autoExec_submitPrompt]
  · intro m msg h
    cases msg with
    | winSize w ht => exact Or.inl h
    | tick =>
      left
      unfold update at h
      dsimp only at h
      split_ifs at h <;> exact h
    | resp output err cli =>
      exact Or.inl (autoExec_handleResponse m output err cli h)
    | execRes err exit =>
      left
      unfold update at h
      cases err with
      | some e => exact h
      | none =>
        dsimp only at h
        split_ifs at h <;> exact h
    | keyMsg k clip =>
      unfold update handleKeyMsg at h
      cases hmode : m.mode with
      | modeInput =>
        rw [hmode] at h
        dsimp only at h
        rcases autoExec_handleInputKeys m k h with hm | hk
        · exact Or.inl hm
        · exact Or.inr ⟨rfl, clip, by rw [hk]⟩
      | modeRunning =>
        rw [hmode] at h
        dsimp only at h
        left
        unfold handleRunningKeys at h
        cases k <;> exact h
      | modeViewing =>
        rw [hmode] at h
        dsimp only at h
        exact Or.inl (autoExec_handleViewingKeys m k clip h)
  · intro m output err cli v b h
    exact handleResponse_exec_clears m output err cli v b h
  · intro m clip hmode
    unfold update handleKeyMsg
    rw [hmode]
    dsimp only
    rfl
  · intro m output err cli h
    exact handleResponse_cmd_none_of_autoExec_false m output err cli h

theorem claim_C10_witness :
    (handleInputKeys
        { initModel ["codex".data] 0 with inputVal := "list files".data }
        GoKey.enterKey).1.autoExecute = false
    ∧ (update
        { initModel ["codex".data] 0 with
            mode := ViewMode.modeRunning, running := true }
        (Msg.resp
          "\x7b\"options\":[\x7b\"value\":\"rm -rf /\",\"description\":\"\",\"recommendation_order\":1\x7d]\x7d".data
          Option.none "codex".data)).2 = Cmd.none :=
  ⟨(claim_C10.1 { initModel ["codex".data] 0 with
      inputVal := "list files".data }).1,
    claim_C10.2.2.2.2
      { initModel ["codex".data] 0 with
          mode := ViewMode.modeRunning, running := true }
      "\x7b\"options\":[\x7b\"value\":\"rm -rf /\",\"description\":\"\",\"recommendation_order\":1\x7d]\x7d".data
      Option.none "codex".data rfl⟩

end Instassist
